import Mathlib

/-!
Shallow embedding of the MVSNet preprocessing / loss / geometry code
(`mvsnet/loss.py`, `mvsnet/preprocess.py`, `mvsnet/test.py`).

Tensors of shape [B, H, W, 1] are embedded as `List (List ℝ)`: the outer
list is the batch axis, the inner list the flattened pixel axis (the
reductions in the source are either over the pixel axes `[1, 2, 3]`
per sample, or over everything, so the H/W split is irrelevant).
`tf.math.pow` on floats is modelled as `Real.rpow`; every base the code
raises to a power is nonnegative.  Float constants (`1e-6`, `0.005`,
`191.0`) are taken at their decimal value.
-/

namespace MVSNet

/-- `tf.cast(tf.not_equal(y_true, 0.0), dtype=float32)` for one pixel. -/
noncomputable def maskVal (g : ℝ) : ℝ := if g = 0 then 0 else 1

/-- `masked_loss` from `mvsnet/loss.py`.

`y_true`, `y_pred` are [B, H, W, 1] batches; `interval` is the [B] tensor
the source obtains by `tf.reshape(interval, [shape[0]])`.  Mirrors the
source line by line: the per-sample denominator is
`abs(sum(mask)) + 1e-6`, raised to `beta` when `beta != 1.0`; the
per-pixel numerator is `|y_true - y_pred| + 0.005 * y_true`, raised to
`alpha` when `alpha != 1.0`, masked, and summed per sample; the scalar
`sum_b(numerator_b / denominator_b)` is multiplied by the [B] tensor
`pow(mean(denominator), beta - 1) / pow(interval, alpha)`. -/
noncomputable def masked_loss (y_true y_pred : List (List ℝ))
    (interval : List ℝ) (alpha beta : ℝ) : List ℝ :=
  let denominator : List ℝ := y_true.map fun gs =>
    let d := |(gs.map maskVal).sum| + 1e-6
    if beta = 1 then d else d ^ beta
  let numerator : List ℝ := (y_true.zip y_pred).map fun s =>
    ((s.1.zip s.2).map fun gp =>
      let e := |gp.1 - gp.2| + 0.005 * gp.1
      (if alpha = 1 then e else e ^ alpha) * maskVal gp.1).sum
  let batchQuot : ℝ := ((numerator.zip denominator).map fun nd => nd.1 / nd.2).sum
  let meanDen : ℝ := denominator.sum / (denominator.length : ℝ)
  interval.map fun i => batchQuot * (meanDen ^ (beta - 1) / i ^ alpha)

/-- `less_one_percentage` from `mvsnet/loss.py`: the denominator is the
global (not per-sample) masked pixel count `abs(sum(mask)) + 1e-6`; the
interval is per sample, tiled over the pixel axes. -/
noncomputable def less_one_percentage (y_true y_pred : List (List ℝ))
    (interval : List ℝ) : ℝ :=
  let denom : ℝ := |(y_true.map fun gs => (gs.map maskVal).sum).sum| + 1e-6
  let total : ℝ := (((y_true.zip y_pred).zip interval).map fun si =>
    ((si.1.1.zip si.1.2).map fun gp =>
      maskVal gp.1 * (if |gp.1 - gp.2| / si.2 ≤ 1 then 1 else 0)).sum).sum
  total / denom

/-- `less_three_percentage` from `mvsnet/loss.py`. -/
noncomputable def less_three_percentage (y_true y_pred : List (List ℝ))
    (interval : List ℝ) : ℝ :=
  let denom : ℝ := |(y_true.map fun gs => (gs.map maskVal).sum).sum| + 1e-6
  let total : ℝ := (((y_true.zip y_pred).zip interval).map fun si =>
    ((si.1.1.zip si.1.2).map fun gp =>
      maskVal gp.1 * (if |gp.1 - gp.2| / si.2 ≤ 3 then 1 else 0)).sum).sum
  total / denom

/-- `mvsnet_regression_loss` from `mvsnet/loss.py`:
`depth_interval = tf.div(depth_end - depth_start, 191.0)` is used for the
loss and for both accuracy metrics. -/
noncomputable def mvsnet_regression_loss
    (estimated_depth_image depth_image : List (List ℝ))
    (depth_start depth_end : List ℝ) (alpha beta : ℝ) :
    List ℝ × ℝ × ℝ :=
  let depth_interval : List ℝ :=
    (depth_end.zip depth_start).map fun p => (p.1 - p.2) / 191
  (masked_loss depth_image estimated_depth_image depth_interval alpha beta,
   less_one_percentage depth_image estimated_depth_image depth_interval,
   less_three_percentage depth_image estimated_depth_image depth_interval)

/-! ### Camera model (`mvsnet/preprocess.py`)

The source stores a camera as a `(2, 4, 4)` array: slab `0` is the 4×4
extrinsic, slab `1` holds the 3×3 intrinsic in its upper-left corner and
the depth-sampling descriptor `(start, interval, num, end)` in row 3.
Here the two slabs are a `Fin 4 → Fin 4 → ℚ` function and a
`Fin 3 → Fin 3 → ℚ` function, and row 3 of slab 1 is the four named
depth fields.  Calibration tokens are modelled as the already-parsed
numbers (`load_cam`'s claims presuppose numeric tokens). -/

structure Cam where
  extrinsic : Fin 4 → Fin 4 → ℚ
  intrinsic : Fin 3 → Fin 3 → ℚ
  depthStart : ℚ
  depthInterval : ℚ
  depthNum : ℚ
  depthEnd : ℚ
deriving DecidableEq

/-- `load_cam` from `mvsnet/preprocess.py`.  `words` is the token list of
the calibration file (index 0 is the leading keyword, which the source
skips); `max_d` is the externally supplied depth count (the `max_d`
argument, falling back to `FLAGS.max_d`).  Indices 1–16 fill the
extrinsic, 18–26 the intrinsic; the total token count then dispatches
the depth-sampling tail, any other count giving an all-zero descriptor.
Fewer than 27 tokens makes the source raise `IndexError`, modelled as
`none`. -/
def load_cam (words : List ℚ) (interval_scale : ℚ) (max_d : ℚ) :
    Option Cam :=
  if 27 ≤ words.length then
    let w : ℕ → ℚ := fun n => words.getD n 0
    let extrinsic : Fin 4 → Fin 4 → ℚ := fun i j => w (4 * i.val + j.val + 1)
    let intrinsic : Fin 3 → Fin 3 → ℚ := fun i j => w (3 * i.val + j.val + 18)
    if words.length = 29 then
      let start := w 27
      let interval := w 28 * interval_scale
      let num := max_d
      some ⟨extrinsic, intrinsic, start, interval, num, start + interval * num⟩
    else if words.length = 30 then
      let start := w 27
      let interval := w 28 * interval_scale
      let num := w 29
      some ⟨extrinsic, intrinsic, start, interval, num, start + interval * num⟩
    else if words.length = 31 then
      some ⟨extrinsic, intrinsic, w 27, w 28 * interval_scale, w 29, w 30⟩
    else
      some ⟨extrinsic, intrinsic, 0, 0, 0, 0⟩
  else none

/-- A concrete 29-token calibration: depth tail `start = 5`,
`interval = 2` (policy (a): count supplied externally). -/
def words29 : List ℚ :=
  [0, 0, 0, 0, 0, 0, 0, 0, 0, 0, 0, 0, 0, 0, 0, 0, 0, 0, 0, 0, 0, 0, 0, 0,
   0, 0, 0, 5, 2]

/-- The camera `load_cam words29 1 3` produces. -/
def cam29 : Cam :=
  ⟨fun i j => words29.getD (4 * i.val + j.val + 1) 0,
   fun i j => words29.getD (3 * i.val + j.val + 18) 0, 5, 2, 3, 11⟩

/-! ### Shared-scale computation (`mvsnet/test.py`, `MVSGenerator.__iter__`)

The adaptive-scaling step: `h_scale`/`w_scale` start at 0 and are raised
to each view's `max_h / height` and `max_w / width`; if either exceeds 1
the source prints an error and calls `exit(-1)` (modelled as `none`);
otherwise `resize_scale` is `h_scale`, replaced by `w_scale` when the
latter is larger.  `sizes` is the list of native `(height, width)`
pairs. -/

def computeSharedScale (sizes : List (ℚ × ℚ)) (max_h max_w : ℚ) :
    Option ℚ :=
  let h_scale := sizes.foldl
    (fun acc hw => if max_h / hw.1 > acc then max_h / hw.1 else acc) 0
  let w_scale := sizes.foldl
    (fun acc hw => if max_w / hw.2 > acc then max_w / hw.2 else acc) 0
  if 1 < h_scale ∨ 1 < w_scale then none
  else some (if h_scale < w_scale then w_scale else h_scale)

/-! ### Scaling and cropping (`mvsnet/preprocess.py`)

Images are height × width pixel grids (the colour-channel axis is never
touched by cropping and is omitted).  Camera arrays live on a heap:
`CamObj` pairs the camera value with a buffer `id`, so that `np.copy`
(a fresh `id`) is distinguishable from an in-place element assignment
(same `id`, new value). -/

structure Img where
  h : ℕ
  w : ℕ
  pix : ℕ → ℕ → ℚ

structure CamObj where
  id : ℕ
  val : Cam

/-- `scale_camera` from `mvsnet/preprocess.py`: `new_cam = np.copy(cam)`
allocates a fresh buffer (`freshId`), then `fx`, `fy`, `cx`, `cy`
(slab-1 entries `(0,0)`, `(1,1)`, `(0,2)`, `(1,2)`) are multiplied by
the scale; everything else is copied unchanged. -/
def scale_camera (cam : CamObj) (scale : ℚ) (freshId : ℕ) : CamObj :=
  let newIntrinsic : Fin 3 → Fin 3 → ℚ := fun i j =>
    if i.val = 0 ∧ j.val = 0 then cam.val.intrinsic i j * scale
    else if i.val = 1 ∧ j.val = 1 then cam.val.intrinsic i j * scale
    else if i.val = 0 ∧ j.val = 2 then cam.val.intrinsic i j * scale
    else if i.val = 1 ∧ j.val = 2 then cam.val.intrinsic i j * scale
    else cam.val.intrinsic i j
  { id := freshId, val := { cam.val with intrinsic := newIntrinsic } }

/-- `int(math.ceil(d / base) * base)` for natural `d` and
`base`. -/
def ceilMult (d base : ℕ) : ℕ := ((d + base - 1) / base) * base

/-- The per-axis target extent in `crop_mvs_input`: clamp to the bound
when the native extent exceeds it, otherwise round the native extent up
to the next multiple of the base size. -/
def newDim (d bound base : ℕ) : ℕ := if bound < d then bound else ceilMult d base

structure CropWindow where
  startH : ℤ
  finishH : ℤ
  startW : ℤ
  finishW : ℤ
deriving DecidableEq

/-- The crop window `crop_mvs_input` computes for one view:
`start = int(math.ceil((native - new) / 2))` per axis,
`finish = start + new`. -/
def cropWindow (h w height width base : ℕ) : CropWindow :=
  let new_h := newDim h height base
  let new_w := newDim w width base
  let start_h : ℤ := ⌈((h : ℚ) - (new_h : ℚ)) / 2⌉
  let start_w : ℤ := ⌈((w : ℚ) - (new_w : ℚ)) / 2⌉
  ⟨start_h, start_h + new_h, start_w, start_w + new_w⟩

/-- Numpy slice-index normalization on an axis of length `n`: a negative
index counts from the end (clamped at 0), a nonnegative one is clamped
at `n`. -/
def npIndex (n : ℕ) (i : ℤ) : ℕ :=
  if i < 0 then ((n : ℤ) + i).toNat else min i.toNat n

/-- `image[sh:fh, sw:fw]` with numpy slice semantics. -/
def npSlice (im : Img) (sh fh sw fw : ℤ) : Img :=
  let sh' := npIndex im.h sh
  let fh' := npIndex im.h fh
  let sw' := npIndex im.w sw
  let fw' := npIndex im.w fw
  ⟨fh' - sh', fw' - sw', fun r c => im.pix (sh' + r) (sw' + c)⟩

/-- One iteration of the view loop in `crop_mvs_input`: slice the image
to its crop window and assign
`cams[view][1][0][2] -= start_w`, `cams[view][1][1][2] -= start_h`
into the *same* camera buffer (the `id` is kept: the source updates the
array in place, without a copy). -/
def cropView (im : Img) (cam : CamObj) (height width base : ℕ) :
    Img × CamObj :=
  let wdw := cropWindow im.h im.w height width base
  let newIntrinsic : Fin 3 → Fin 3 → ℚ := fun i j =>
    if i.val = 0 ∧ j.val = 2 then cam.val.intrinsic i j - (wdw.startW : ℚ)
    else if i.val = 1 ∧ j.val = 2 then cam.val.intrinsic i j - (wdw.startH : ℚ)
    else cam.val.intrinsic i j
  (npSlice im wdw.startH wdw.finishH wdw.startW wdw.finishW,
   { cam with val := { cam.val with intrinsic := newIntrinsic } })

/-- `crop_mvs_input` from `mvsnet/preprocess.py`: every view is cropped
to its own window; the optional depth image is then sliced with the loop
variables `start_h`/`finish_h`/`start_w`/`finish_w` as last written,
i.e. with the *last* view's window.  (With an empty view list and a
depth image the source would hit an unbound loop variable; that case is
unreachable, `view_num ≥ 1`.) -/
def crop_mvs_input (views : List (Img × CamObj)) (depth : Option Img)
    (height width base : ℕ) : List (Img × CamObj) × Option Img :=
  let cropped := views.map fun vc => cropView vc.1 vc.2 height width base
  match depth, views.getLast? with
  | some d, some vc =>
      let wdw := cropWindow vc.1.h vc.1.w height width base
      (cropped, some (npSlice d wdw.startH wdw.finishH wdw.startW wdw.finishW))
  | _, _ => (cropped, none)

/-- A camera value whose intrinsic entries are all `5`. -/
def camC : Cam := ⟨fun _ _ => 0, fun _ _ => 5, 0, 0, 0, 0⟩

/-- A 10 × 16 image. -/
def im10 : Img := ⟨10, 16, fun _ _ => 0⟩

/-- A camera buffer with id `7` holding `camC`. -/
def obj7 : CamObj := ⟨7, camC⟩

/-- A 10 × 16 depth image with distinguishable pixels. -/
def dimg : Img := ⟨10, 16, fun r c => (r : ℚ) + (c : ℚ)⟩

/-! ### PFM codec (`mvsnet/preprocess.py`, `write_pfm` / `load_pfm`)

A PFM file is modelled at value level: header tag, ASCII dimensions,
scale, the float payload as a list of values in row-major on-disk order,
and the payload's byte order as a tag (`little`).  Decoding bytes with
the wrong byte order is not value-faithful, so `load_pfm` also returns
which byte order it chose (from the sign of the scale), and the
theorems assert that this choice always matches the payload's tag. -/

/-- `image.dtype.byteorder`: `'<'`, `'>'`, or `'='` (native). -/
inductive NpEndian where
  | little
  | big
  | native
deriving DecidableEq

/-- `endian == '<' or endian == '=' and sys.byteorder == 'little'`:
whether the array data being written is little-endian. -/
def isLittleData (bo : NpEndian) (platformLittle : Bool) : Bool :=
  match bo with
  | .little => true
  | .big => false
  | .native => platformLittle

/-- A float32 image handed to `write_pfm`: 2-dimensional `H × W` or
3-dimensional `H × W × C`. -/
inductive PfmImage where
  | dim2 (h w : ℕ) (pix : ℕ → ℕ → ℚ)
  | dim3 (h w c : ℕ) (pix : ℕ → ℕ → ℕ → ℚ)

/-- The numpy shape tuple of an image. -/
def PfmImage.shape : PfmImage → List ℕ
  | .dim2 h w _ => [h, w]
  | .dim3 h w c _ => [h, w, c]

/-- `np.flipud(image).tostring()` for a 2-dimensional image: rows in
bottom-to-top order, each row left to right. -/
def payload2 (h w : ℕ) (pix : ℕ → ℕ → ℚ) : List ℚ :=
  ((List.range h).map fun r =>
    (List.range w).map fun c => pix (h - 1 - r) c).flatten

/-- `np.flipud(image).tostring()` for a 3-dimensional image. -/
def payload3 (h w ch : ℕ) (pix : ℕ → ℕ → ℕ → ℚ) : List ℚ :=
  ((List.range h).map fun r =>
    ((List.range w).map fun c =>
      (List.range ch).map fun k => pix (h - 1 - r) c k).flatten).flatten

structure PfmFile where
  header : String
  width : ℕ
  height : ℕ
  scale : ℚ
  little : Bool
  data : List ℚ

/-- `write_pfm` from `mvsnet/preprocess.py` (the dtype is float32 by
the model's construction): color iff 3-dimensional with 3 channels,
greyscale for 2-dimensional or 1-channel images, error otherwise; the
rows are flipped before flattening, and the written scale is negated
when the data is little-endian. -/
def write_pfm (image : PfmImage) (scale : ℚ) (bo : NpEndian)
    (platformLittle : Bool) : Option PfmFile :=
  let dl := isLittleData bo platformLittle
  let outScale := if dl then -scale else scale
  match image with
  | .dim3 h w c pix =>
      if c = 3 then some ⟨"PF", w, h, outScale, dl, payload3 h w 3 pix⟩
      else if c = 1 then some ⟨"Pf", w, h, outScale, dl, payload3 h w 1 pix⟩
      else none
  | .dim2 h w pix => some ⟨"Pf", w, h, outScale, dl, payload2 h w pix⟩

/-- `load_pfm` from `mvsnet/preprocess.py`: `PF` means color, `Pf`
greyscale, anything else raises; little-endian decoding is chosen iff
the scale is negative (the returned `Bool`); the payload is reshaped to
`(height, width, 3)` or `(height, width)` (raising on a size mismatch)
and flipped back to top-to-bottom row order. -/
def load_pfm (f : PfmFile) : Option (Bool × PfmImage) :=
  let littleRead : Bool := decide (f.scale < 0)
  if f.header = "PF" then
    if f.data.length = f.height * f.width * 3 then
      some (littleRead, .dim3 f.height f.width 3
        (fun r c k => f.data.getD (((f.height - 1 - r) * f.width + c) * 3 + k) 0))
    else none
  else if f.header = "Pf" then
    if f.data.length = f.height * f.width then
      some (littleRead, .dim2 f.height f.width
        (fun r c => f.data.getD ((f.height - 1 - r) * f.width + c) 0))
    else none
  else none

/-! ### Helper lemmas for the loss engine -/

lemma maskVal_nonneg (g : ℝ) : 0 ≤ maskVal g := by
  unfold maskVal; split <;> norm_num

lemma maskSum_nonneg (gs : List ℝ) : 0 ≤ (gs.map maskVal).sum := by
  refine List.sum_nonneg ?_
  intro x hx
  simp only [List.mem_map] at hx
  obtain ⟨g, -, rfl⟩ := hx
  exact maskVal_nonneg g

lemma abs_maskSum (gs : List ℝ) :
    |(gs.map maskVal).sum| = (gs.map maskVal).sum :=
  abs_of_nonneg (maskSum_nonneg gs)

lemma batchMaskSum_nonneg (yt : List (List ℝ)) :
    0 ≤ (yt.map fun gs => (gs.map maskVal).sum).sum := by
  refine List.sum_nonneg ?_
  intro x hx
  simp only [List.mem_map] at hx
  obtain ⟨gs, -, rfl⟩ := hx
  exact maskSum_nonneg gs

lemma zip_map_div (l1 l2 : List (List ℝ))
    (f : List ℝ × List ℝ → ℝ) (g : List ℝ → ℝ) :
    ((((l1.zip l2).map f).zip (l1.map g)).map fun nd => nd.1 / nd.2)
      = (l1.zip l2).map fun s => f s / g s.1 := by
  induction l1 generalizing l2 with
  | nil => simp
  | cons a t ih =>
    cases l2 with
    | nil => simp
    | cons b t2 => simp [ih]

lemma sample_indicator_sum (k : ℝ) (hk : 0 ≤ k) (i : ℝ) (gs ps : List ℝ)
    (hlen : gs.length = ps.length)
    (hagree : ∀ gp ∈ gs.zip ps, gp.1 ≠ 0 → gp.2 = gp.1) :
    ((gs.zip ps).map fun gp =>
        maskVal gp.1 * (if |gp.1 - gp.2| / i ≤ k then 1 else 0)).sum
      = (gs.map maskVal).sum := by
  induction gs generalizing ps with
  | nil => simp
  | cons g t ih =>
    cases ps with
    | nil => simp at hlen
    | cons p t2 =>
      simp only [List.length_cons] at hlen
      simp only [List.zip_cons_cons] at hagree
      simp only [List.zip_cons_cons, List.map_cons, List.sum_cons]
      have ht : ((t.zip t2).map fun gp =>
          maskVal gp.1 * (if |gp.1 - gp.2| / i ≤ k then 1 else 0)).sum
            = (t.map maskVal).sum := by
        refine ih t2 (by omega) ?_
        intro gp hgp hne
        exact hagree gp (List.mem_cons_of_mem _ hgp) hne
      rw [ht]
      congr 1
      by_cases hg : g = 0
      · simp [maskVal, hg]
      · have hp : p = g := hagree (g, p) (List.mem_cons_self _ _) hg
        have h0 : |g - p| / i = 0 := by simp [hp]
        rw [h0, if_pos hk, mul_one]

lemma batch_indicator_sum (k : ℝ) (hk : 0 ≤ k)
    (yt yp : List (List ℝ)) (iv : List ℝ)
    (hlen : yp.length = yt.length) (hiv : iv.length = yt.length)
    (hshape : ∀ sp ∈ yt.zip yp, sp.1.length = sp.2.length)
    (hagree : ∀ sp ∈ yt.zip yp, ∀ gp ∈ sp.1.zip sp.2, gp.1 ≠ 0 → gp.2 = gp.1) :
    (((yt.zip yp).zip iv).map fun si =>
        ((si.1.1.zip si.1.2).map fun gp =>
          maskVal gp.1 * (if |gp.1 - gp.2| / si.2 ≤ k then 1 else 0)).sum).sum
      = (yt.map fun gs => (gs.map maskVal).sum).sum := by
  induction yt generalizing yp iv with
  | nil => simp
  | cons gs t ih =>
    cases yp with
    | nil => simp at hlen
    | cons ps t2 =>
      cases iv with
      | nil => simp at hiv
      | cons i t3 =>
        simp only [List.length_cons] at hlen hiv
        simp only [List.zip_cons_cons] at hshape hagree
        simp only [List.zip_cons_cons, List.map_cons, List.sum_cons]
        rw [ih t2 t3 (by omega) (by omega)
              (fun sp hsp => hshape sp (List.mem_cons_of_mem _ hsp))
              (fun sp hsp => hagree sp (List.mem_cons_of_mem _ hsp)),
            sample_indicator_sum k hk i gs ps
              (hshape (gs, ps) (List.mem_cons_self _ _))
              (hagree (gs, ps) (List.mem_cons_self _ _))]

/-! ### Claim theorems for the loss engine -/

/-- C2 (counterexample): with `gt = pred = [[1]]`, `interval = [1]`,
`alpha = 1`, `beta = 2`, the code returns `[0.005]`, while the claimed
formula — batch sum of per-sample error over `V ^ beta`, normalized by
`mean(V) ^ (beta - 1) / interval ^ alpha` with `V = 1 + 1e-6` — gives
`0.005 / (1 + 1e-6)`; the code normalizes by the mean of the *powered*
counts `V ^ beta`, not of `V`. -/
theorem masked_loss_C2_counterexample :
    masked_loss [[1]] [[1]] [1] 1 2 ≠
      [0.005 / ((1 + 1e-6) ^ (2:ℝ)) *
        ((1 + 1e-6) ^ ((2:ℝ) - 1) / (1:ℝ) ^ (1:ℝ))] := by
  have h : masked_loss [[1]] [[1]] [1] 1 2 = [0.005] := by
    simp only [masked_loss]
    norm_num [maskVal, Real.rpow_two, Real.rpow_one, Real.one_rpow]
  rw [h, Real.rpow_two, Real.one_rpow]
  norm_num [Real.rpow_one]

/-- C2 (amended): for every batch, positive uniform interval `i` and all
exponents, `masked_loss` returns, in each batch slot, the batch sum of
(per-sample masked error sum / D) multiplied by `mean(D) ^ (beta - 1) /
i ^ alpha`, where `D` is the *beta-powered* floored valid-pixel count
(`D = V ^ beta` for `beta ≠ 1`, `D = V` for `beta = 1`,
`V = valid count + 1e-6`) and the per-pixel error is
`(|gt - pred| + 0.005 * gt) ^ alpha` zeroed at invalid pixels. -/
theorem masked_loss_C2_amended (y_true y_pred : List (List ℝ))
    (i alpha beta : ℝ) (hi : 0 < i) :
    masked_loss y_true y_pred (List.replicate y_true.length i) alpha beta =
      List.replicate y_true.length
        ((((y_true.zip y_pred).map fun s =>
            ((s.1.zip s.2).map fun gp =>
              (if alpha = 1 then |gp.1 - gp.2| + 0.005 * gp.1
               else (|gp.1 - gp.2| + 0.005 * gp.1) ^ alpha) * maskVal gp.1).sum /
            (if beta = 1 then (s.1.map maskVal).sum + 1e-6
             else ((s.1.map maskVal).sum + 1e-6) ^ beta)).sum) *
          (((y_true.map fun gs =>
              if beta = 1 then (gs.map maskVal).sum + 1e-6
              else ((gs.map maskVal).sum + 1e-6) ^ beta).sum /
            (y_true.length : ℝ)) ^ (beta - 1) / i ^ alpha)) := by
  simp only [masked_loss, abs_maskSum, List.map_replicate, List.length_map,
    zip_map_div]

/-- C2 (witness) for `masked_loss_C2_amended` at a concrete input:
one valid pixel with error `1.015`, count `V = 1 + 1e-6`, interval `2`. -/
theorem masked_loss_C2_witness :
    (0:ℝ) < 2 ∧
      masked_loss [[3, 0]] [[4, 5]] (List.replicate 1 2) 1 1 =
        List.replicate 1 (1.015 / (1 + 1e-6) * (1 / 2)) := by
  refine ⟨by norm_num, Eq.trans
    (masked_loss_C2_amended [[3, 0]] [[4, 5]] 2 1 1 (by norm_num)) ?_⟩
  norm_num [maskVal, Real.rpow_one]

/-- C6 (counterexample): `gt = pred = [[1]]` has one valid pixel and
`interval = [1] > 0`, yet `less_one_percentage` returns
`1 / (1 + 1e-6)`, which is not exactly `1.0`. -/
theorem accuracy_C6_counterexample :
    less_one_percentage [[1]] [[1]] [1] ≠ 1 ∨
      less_three_percentage [[1]] [[1]] [1] ≠ 1 := by
  left
  simp [less_one_percentage, maskVal]
  norm_num

/-- C6 (amended): if the prediction equals the ground truth at every
valid pixel, the ground truth has at least one valid pixel and every
per-sample interval is positive, then both threshold accuracies return
`V / (V + 1e-6)` where `V` is the total valid-pixel count — strictly
less than `1.0` (approaching it to within the epsilon guard), not
exactly `1.0`. -/
theorem accuracy_C6_amended (y_true y_pred : List (List ℝ))
    (interval : List ℝ)
    (hlen : y_pred.length = y_true.length)
    (hiv : interval.length = y_true.length)
    (hshape : ∀ sp ∈ y_true.zip y_pred, sp.1.length = sp.2.length)
    (hagree : ∀ sp ∈ y_true.zip y_pred, ∀ gp ∈ sp.1.zip sp.2,
      gp.1 ≠ 0 → gp.2 = gp.1)
    (hvalid : ∃ gs ∈ y_true, ∃ g ∈ gs, g ≠ 0)
    (hpos : ∀ i ∈ interval, 0 < i) :
    less_one_percentage y_true y_pred interval =
        (y_true.map fun gs => (gs.map maskVal).sum).sum /
          ((y_true.map fun gs => (gs.map maskVal).sum).sum + 1e-6) ∧
      less_three_percentage y_true y_pred interval =
        (y_true.map fun gs => (gs.map maskVal).sum).sum /
          ((y_true.map fun gs => (gs.map maskVal).sum).sum + 1e-6) ∧
      less_one_percentage y_true y_pred interval < 1 ∧
      less_three_percentage y_true y_pred interval < 1 := by
  have hV := batchMaskSum_nonneg y_true
  have h1 : less_one_percentage y_true y_pred interval =
      (y_true.map fun gs => (gs.map maskVal).sum).sum /
        ((y_true.map fun gs => (gs.map maskVal).sum).sum + 1e-6) := by
    unfold less_one_percentage
    rw [batch_indicator_sum 1 (by norm_num) y_true y_pred interval
          hlen hiv hshape hagree,
        abs_of_nonneg hV]
  have h3 : less_three_percentage y_true y_pred interval =
      (y_true.map fun gs => (gs.map maskVal).sum).sum /
        ((y_true.map fun gs => (gs.map maskVal).sum).sum + 1e-6) := by
    unfold less_three_percentage
    rw [batch_indicator_sum 3 (by norm_num) y_true y_pred interval
          hlen hiv hshape hagree,
        abs_of_nonneg hV]
  have hlt : (y_true.map fun gs => (gs.map maskVal).sum).sum /
      ((y_true.map fun gs => (gs.map maskVal).sum).sum + 1e-6) < 1 := by
    rw [div_lt_one (by positivity)]
    norm_num
  exact ⟨h1, h3, h1 ▸ hlt, h3 ▸ hlt⟩

/-- C6 (witness) for `accuracy_C6_amended` at a concrete input. -/
theorem accuracy_C6_witness :
    less_one_percentage [[1]] [[1]] [1] =
        (([[1]] : List (List ℝ)).map fun gs => (gs.map maskVal).sum).sum /
          ((([[1]] : List (List ℝ)).map fun gs => (gs.map maskVal).sum).sum + 1e-6) ∧
      less_three_percentage [[1]] [[1]] [1] =
        (([[1]] : List (List ℝ)).map fun gs => (gs.map maskVal).sum).sum /
          ((([[1]] : List (List ℝ)).map fun gs => (gs.map maskVal).sum).sum + 1e-6) ∧
      less_one_percentage [[1]] [[1]] [1] < 1 ∧
      less_three_percentage [[1]] [[1]] [1] < 1 :=
  accuracy_C6_amended [[1]] [[1]] [1] rfl rfl
    (by simp)
    (by simp)
    ⟨[1], by simp, 1, by simp, one_ne_zero⟩
    (by simp)

/-- C9: `mvsnet_regression_loss` derives the depth interval used for the
loss and for both threshold accuracies as
`(depth_end - depth_start) / 191`, independent of any bin count (the
function takes no bin-count input at all). -/
theorem regression_loss_interval_C9
    (estimated_depth_image depth_image : List (List ℝ))
    (depth_start depth_end : List ℝ) (alpha beta : ℝ) :
    mvsnet_regression_loss estimated_depth_image depth_image
        depth_start depth_end alpha beta =
      (masked_loss depth_image estimated_depth_image
        ((depth_end.zip depth_start).map fun p => (p.1 - p.2) / 191) alpha beta,
       less_one_percentage depth_image estimated_depth_image
        ((depth_end.zip depth_start).map fun p => (p.1 - p.2) / 191),
       less_three_percentage depth_image estimated_depth_image
        ((depth_end.zip depth_start).map fun p => (p.1 - p.2) / 191)) := rfl

/-! ### Claim theorems for camera parsing -/

/-- C1 (counterexample): on a 29-token calibration with `start = 5`,
`interval = 2` and external count `max_d = 3`, the parsed depth end is
`5 + 2 * 3 = 11`, not the claimed `start + interval * (count - 1) = 9`. -/
theorem load_cam_C1_counterexample :
    (load_cam words29 1 3).map Cam.depthEnd = some 11 ∧
      (11 : ℚ) ≠ 5 + 2 * (3 - 1) := by
  constructor
  · norm_num [load_cam, words29]
  · norm_num

/-- C1 (amended): for a 29- or 30-token calibration with positive
interval, the parsed depth end is `start + interval * count` (not
`count - 1`), with the count taken from `max_d` in the 29-token case and
from token 29 in the 30-token case. -/
theorem load_cam_C1_amended (words : List ℚ) (iscale max_d : ℚ) (c : Cam)
    (hlen : words.length = 29 ∨ words.length = 30)
    (hpos : 0 < c.depthInterval)
    (h : load_cam words iscale max_d = some c) :
    c.depthEnd = c.depthStart + c.depthInterval * c.depthNum ∧
      (words.length = 29 → c.depthNum = max_d) ∧
      (words.length = 30 → c.depthNum = words.getD 29 0) := by
  simp only [load_cam] at h
  split_ifs at h with h1 h2 h3 h4 <;>
    simp only [Option.some.injEq] at h
  · subst h
    exact ⟨rfl, fun _ => rfl, fun hc => absurd hc (by omega)⟩
  · subst h
    exact ⟨rfl, fun hc => absurd hc (by omega), fun _ => rfl⟩
  · omega
  · omega

/-- C1 (witness) for `load_cam_C1_amended` on `words29`. -/
theorem load_cam_C1_witness :
    (words29.length = 29 ∨ words29.length = 30) ∧
      (0 : ℚ) < cam29.depthInterval ∧
      load_cam words29 1 3 = some cam29 ∧
      (cam29.depthEnd = cam29.depthStart + cam29.depthInterval * cam29.depthNum ∧
        (words29.length = 29 → cam29.depthNum = 3) ∧
        (words29.length = 30 → cam29.depthNum = words29.getD 29 0)) :=
  ⟨Or.inl (by norm_num [words29]), by norm_num [cam29],
   by norm_num [load_cam, words29, cam29],
   load_cam_C1_amended words29 1 3 cam29 (Or.inl (by norm_num [words29]))
     (by norm_num [cam29]) (by norm_num [load_cam, words29, cam29])⟩

/-- C8: a calibration that fills its extrinsic and intrinsic blocks
(at least 27 tokens) but whose token count is none of 29, 30, 31 parses
without error into a camera whose depth descriptor is all zeros, the
extrinsic and intrinsic blocks still read from the tokens. -/
theorem load_cam_C8 (words : List ℚ) (iscale max_d : ℚ)
    (h27 : 27 ≤ words.length)
    (h29 : words.length ≠ 29) (h30 : words.length ≠ 30)
    (h31 : words.length ≠ 31) :
    load_cam words iscale max_d =
      some ⟨fun i j => words.getD (4 * i.val + j.val + 1) 0,
            fun i j => words.getD (3 * i.val + j.val + 18) 0, 0, 0, 0, 0⟩ := by
  simp only [load_cam]
  rw [if_pos h27, if_neg h29, if_neg h30, if_neg h31]

/-- C8 (witness) for `load_cam_C8` on a 28-token calibration. -/
theorem load_cam_C8_witness :
    27 ≤ (List.replicate 28 (0:ℚ)).length ∧
      (List.replicate 28 (0:ℚ)).length ≠ 29 ∧
      (List.replicate 28 (0:ℚ)).length ≠ 30 ∧
      (List.replicate 28 (0:ℚ)).length ≠ 31 ∧
      load_cam (List.replicate 28 (0:ℚ)) 1 5 =
        some ⟨fun i j => (List.replicate 28 (0:ℚ)).getD (4 * i.val + j.val + 1) 0,
              fun i j => (List.replicate 28 (0:ℚ)).getD (3 * i.val + j.val + 18) 0,
              0, 0, 0, 0⟩ :=
  ⟨by norm_num, by norm_num, by norm_num, by norm_num,
   load_cam_C8 (List.replicate 28 (0:ℚ)) 1 5 (by norm_num) (by norm_num)
     (by norm_num) (by norm_num)⟩

/-! ### Helper lemmas for the shared scale -/

lemma foldl_if_max (f : ℚ × ℚ → ℚ) (l : List (ℚ × ℚ)) (a : ℚ) :
    l.foldl (fun acc p => if f p > acc then f p else acc) a
      = (l.map f).foldl max a := by
  induction l generalizing a with
  | nil => rfl
  | cons x t ih =>
    simp only [List.foldl_cons, List.map_cons]
    rw [← ih]
    congr 1
    rcases le_or_lt (f x) a with h | h
    · rw [if_neg (not_lt.mpr h), max_eq_left h]
    · rw [if_pos h, max_eq_right h.le]

lemma foldl_max_pair (f g : ℚ × ℚ → ℚ) (l : List (ℚ × ℚ)) (a b : ℚ) :
    (l.map fun p => max (f p) (g p)).foldl max (max a b)
      = max ((l.map f).foldl max a) ((l.map g).foldl max b) := by
  induction l generalizing a b with
  | nil => rfl
  | cons x t ih =>
    simp only [List.map_cons, List.foldl_cons]
    rw [max_max_max_comm, ih]

/-! ### Claim theorem for the shared scale -/

/-- C4: for a nonempty multi-view set with positive native sizes and
positive bounds, the shared scale is the maximum over all views of the
maximum of that view's `max_h / height` and `max_w / width`; the step
fails (`none`) exactly when that maximum exceeds `1`, and on
`[(768, 1024), (600, 800)]` with bounds `384 × 512` it returns
`16/25 = 0.64`. -/
theorem shared_scale_C4 (sizes : List (ℚ × ℚ)) (mh mw : ℚ)
    (hne : sizes ≠ []) (hpos : ∀ p ∈ sizes, 0 < p.1 ∧ 0 < p.2)
    (hmh : 0 < mh) (hmw : 0 < mw) :
    (computeSharedScale sizes mh mw = none ↔
        1 < (sizes.map fun p => max (mh / p.1) (mw / p.2)).foldl max 0) ∧
      ((sizes.map fun p => max (mh / p.1) (mw / p.2)).foldl max 0 ≤ 1 →
        computeSharedScale sizes mh mw =
          some ((sizes.map fun p => max (mh / p.1) (mw / p.2)).foldl max 0)) ∧
      computeSharedScale [(768, 1024), (600, 800)] 384 512 = some (16/25) := by
  have h1 := foldl_if_max (fun p => mh / p.1) sizes 0
  have h2 := foldl_if_max (fun p => mw / p.2) sizes 0
  have hpair := foldl_max_pair (fun p => mh / p.1) (fun p => mw / p.2) sizes 0 0
  rw [max_self] at hpair
  simp only [computeSharedScale]
  rw [hpair, ← h1, ← h2]
  set A := sizes.foldl (fun acc hw => if mh / hw.1 > acc then mh / hw.1 else acc) 0
    with hA
  set B := sizes.foldl (fun acc hw => if mw / hw.2 > acc then mw / hw.2 else acc) 0
    with hB
  refine ⟨?_, ?_, by norm_num [computeSharedScale]⟩
  · rw [lt_max_iff]
    by_cases hc : 1 < A ∨ 1 < B
    · simp [hc]
    · simp [hc]
  · intro h
    have hA1 : ¬ 1 < A := not_lt.mpr (le_trans (le_max_left A B) h)
    have hB1 : ¬ 1 < B := not_lt.mpr (le_trans (le_max_right A B) h)
    rw [if_neg (by tauto)]
    congr 1
    rcases lt_trichotomy A B with hlt | heq | hgt
    · rw [if_pos hlt, max_eq_right hlt.le]
    · rw [heq, if_neg (lt_irrefl _), max_self]
    · rw [if_neg (not_lt.mpr hgt.le), max_eq_left hgt.le]

/-- C4 (witness): `shared_scale_C4` applied at the worked example of the
spec. -/
theorem shared_scale_C4_witness :
    ([((768:ℚ), (1024:ℚ)), (600, 800)] ≠ []) ∧
      (∀ p ∈ [((768:ℚ), (1024:ℚ)), (600, 800)], 0 < p.1 ∧ 0 < p.2) ∧
      (0:ℚ) < 384 ∧ (0:ℚ) < 512 ∧
      computeSharedScale [(768, 1024), (600, 800)] 384 512 = some (16/25) :=
  ⟨by simp, by norm_num, by norm_num, by norm_num,
   (shared_scale_C4 [(768, 1024), (600, 800)] 384 512 (by simp) (by norm_num)
     (by norm_num) (by norm_num)).2.2⟩

/-! ### Claim theorems for scaling and cropping -/

/-- C5 (counterexample): cropping a single 10 × 16 view with bounds
8 × 16 and base 8 updates the camera *in place*: the output camera has
the same buffer id `7` as the input, but its `cy` entry has changed from
`5` to `4` (reduced by the crop origin `start_h = 1`), contradicting
"the original camera object passed in is never mutated in place". -/
theorem camera_ops_C5_counterexample :
    ((crop_mvs_input [(im10, obj7)] none 8 16 8).1.map fun vc =>
        (vc.2.id, vc.2.val.intrinsic 1 2)) = [(7, 4)] ∧
      obj7.val.intrinsic 1 2 = 5 ∧ ((4:ℚ)) ≠ 5 := by
  refine ⟨?_, rfl, by norm_num⟩
  norm_num [crop_mvs_input, cropView, cropWindow, newDim, ceilMult, im10,
    obj7, camC]

/-- C5 (amended): `scale_camera` copies (fresh buffer id, `fx, fy, cx,
cy` multiplied, extrinsic unchanged), but the crop step updates every
camera in place: each output camera keeps its input buffer id while its
`cx`, `cy` are reduced by the view's crop origin. -/
theorem camera_ops_C5 (cam : CamObj) (s : ℚ) (fid : ℕ) (hfid : cam.id ≠ fid)
    (views : List (Img × CamObj)) (depth : Option Img)
    (height width base : ℕ) :
    ((scale_camera cam s fid).id = fid ∧
      (scale_camera cam s fid).val.extrinsic = cam.val.extrinsic ∧
      (scale_camera cam s fid).val.intrinsic 0 0 = cam.val.intrinsic 0 0 * s ∧
      (scale_camera cam s fid).val.intrinsic 1 1 = cam.val.intrinsic 1 1 * s ∧
      (scale_camera cam s fid).val.intrinsic 0 2 = cam.val.intrinsic 0 2 * s ∧
      (scale_camera cam s fid).val.intrinsic 1 2 = cam.val.intrinsic 1 2 * s) ∧
      ((crop_mvs_input views depth height width base).1.map fun vc => vc.2.id) =
        (views.map fun vc => vc.2.id) ∧
      ((crop_mvs_input views depth height width base).1.map fun vc =>
          vc.2.val.intrinsic 0 2) =
        (views.map fun vc => vc.2.val.intrinsic 0 2 -
          ((cropWindow vc.1.h vc.1.w height width base).startW : ℚ)) ∧
      ((crop_mvs_input views depth height width base).1.map fun vc =>
          vc.2.val.intrinsic 1 2) =
        (views.map fun vc => vc.2.val.intrinsic 1 2 -
          ((cropWindow vc.1.h vc.1.w height width base).startH : ℚ)) := by
  have hfst : (crop_mvs_input views depth height width base).1 =
      views.map fun vc => cropView vc.1 vc.2 height width base := by
    cases depth with
    | none => rfl
    | some d =>
      cases hl : views.getLast? with
      | none => simp [crop_mvs_input, hl]
      | some vc => simp [crop_mvs_input, hl]
  refine ⟨⟨rfl, rfl, ?_, ?_, ?_, ?_⟩, ?_, ?_, ?_⟩
  · simp [scale_camera]
  · simp [scale_camera]
  · simp [scale_camera]
  · simp [scale_camera]
  · rw [hfst, List.map_map]
    rfl
  · rw [hfst, List.map_map]
    refine List.map_congr_left fun vc _ => ?_
    simp [cropView]
  · rw [hfst, List.map_map]
    refine List.map_congr_left fun vc _ => ?_
    simp [cropView]

/-- C5 (witness) for `camera_ops_C5`: scaling `obj7` into a fresh
buffer id `3`. -/
theorem camera_ops_C5_witness :
    obj7.id ≠ 3 ∧ (scale_camera obj7 2 3).id = 3 :=
  ⟨by norm_num [obj7],
   (camera_ops_C5 obj7 2 3 (by norm_num [obj7]) [] none 8 16 8).1.1⟩

/-- C10 (counterexample): views of post-scale heights 9 and 10 (width
16) get the *same* crop window under bounds 8 × 16 with base 8, so the
last view's window can coincide with the reference view's although the
sizes differ — refuting "the two coincide only when every view shares
the reference view's post-scale size". -/
theorem depth_crop_C10_counterexample :
    cropWindow 9 16 8 16 8 = cropWindow 10 16 8 16 8 ∧ (9 : ℕ) ≠ 10 := by
  constructor
  · have c1 : ⌈(1:ℚ) / 2⌉ = 1 := Int.ceil_eq_iff.mpr (by norm_num)
    have h9 : cropWindow 9 16 8 16 8 = ⟨1, 9, 0, 16⟩ := by
      simp only [cropWindow, newDim, ceilMult]
      norm_num
      rw [c1]
      norm_num
    have h10 : cropWindow 10 16 8 16 8 = ⟨1, 9, 0, 16⟩ := by
      simp only [cropWindow, newDim, ceilMult]
      norm_num
    rw [h9, h10]
  · norm_num

/-- C10 (amended): the depth image is cropped with the crop window of
the *last* view of the sample, not the reference view's; the two windows
coincide whenever every view shares the reference view's post-scale
size (though they can also coincide for differing sizes). -/
theorem depth_crop_C10 (views : List (Img × CamObj)) (d : Img)
    (height width base : ℕ) (last : Img × CamObj)
    (hlast : views.getLast? = some last) :
    (crop_mvs_input views (some d) height width base).2 =
      some (npSlice d (cropWindow last.1.h last.1.w height width base).startH
        (cropWindow last.1.h last.1.w height width base).finishH
        (cropWindow last.1.h last.1.w height width base).startW
        (cropWindow last.1.h last.1.w height width base).finishW) ∧
      (∀ first, views.head? = some first →
        (∀ vc ∈ views, vc.1.h = first.1.h ∧ vc.1.w = first.1.w) →
        cropWindow last.1.h last.1.w height width base =
          cropWindow first.1.h first.1.w height width base) := by
  constructor
  · simp [crop_mvs_input, hlast]
  · intro first hfirst hsame
    have hmem : last ∈ views := by
      obtain ⟨hne, heq⟩ := List.mem_getLast?_eq_getLast
        (show last ∈ views.getLast? by simp [Option.mem_def, hlast])
      rw [heq]
      exact List.getLast_mem hne
    obtain ⟨hh, hw⟩ := hsame last hmem
    rw [hh, hw]

/-- C10 (witness) for `depth_crop_C10` on a single-view sample. -/
theorem depth_crop_C10_witness :
    ([(im10, obj7)].getLast? = some (im10, obj7)) ∧
      (crop_mvs_input [(im10, obj7)] (some dimg) 8 16 8).2 =
        some (npSlice dimg (cropWindow im10.h im10.w 8 16 8).startH
          (cropWindow im10.h im10.w 8 16 8).finishH
          (cropWindow im10.h im10.w 8 16 8).startW
          (cropWindow im10.h im10.w 8 16 8).finishW) :=
  ⟨rfl, (depth_crop_C10 [(im10, obj7)] dimg 8 16 8 (im10, obj7) rfl).1⟩

/-! ### Helper lemmas for the PFM codec -/

lemma getD_flatten (rows : List (List ℚ)) (w r c : ℕ)
    (hw : ∀ l ∈ rows, l.length = w) (hr : r < rows.length) (hc : c < w) :
    rows.flatten.getD (r * w + c) 0 = (rows.getD r []).getD c 0 := by
  induction rows generalizing r with
  | nil => simp at hr
  | cons a t ih =>
    have ha : a.length = w := hw a (List.mem_cons_self _ _)
    cases r with
    | zero =>
      simp only [List.flatten_cons, Nat.zero_mul, Nat.zero_add,
        List.getD_cons_zero]
      exact List.getD_append a t.flatten 0 c (by omega)
    | succ r' =>
      simp only [List.flatten_cons, List.getD_cons_succ]
      rw [List.getD_append_right a t.flatten 0 _ (by rw [ha]; nlinarith)]
      have hidx : (r' + 1) * w + c - a.length = r' * w + c := by
        rw [ha]; ring_nf; omega
      rw [hidx]
      exact ih r' (fun l hl => hw l (List.mem_cons_of_mem _ hl))
        (by simpa using hr)

lemma getD_map_range {α : Type} (d : α) (n c : ℕ) (hc : c < n) (f : ℕ → α) :
    ((List.range n).map f).getD c d = f c := by
  rw [List.getD_eq_getElem _ _ (by simpa)]
  simp

lemma payload2_length (h w : ℕ) (pix : ℕ → ℕ → ℚ) :
    (payload2 h w pix).length = h * w := by
  simp only [payload2, List.length_flatten, List.map_map]
  have hconst : ((List.range h).map (List.length ∘ fun r =>
      (List.range w).map fun c => pix (h - 1 - r) c)) =
      List.replicate h w := by
    rw [show (List.length ∘ fun r => (List.range w).map fun c => pix (h - 1 - r) c)
        = fun _ => w by funext r; simp]
    rw [List.map_const', List.length_range]
  rw [hconst, List.sum_replicate, smul_eq_mul]

lemma payload3_length (h w ch : ℕ) (pix : ℕ → ℕ → ℕ → ℚ) :
    (payload3 h w ch pix).length = h * (w * ch) := by
  simp only [payload3, List.length_flatten, List.map_map]
  have hrow : ∀ r : ℕ, (List.length ∘ fun r =>
      ((List.range w).map fun c => (List.range ch).map fun k =>
        pix (h - 1 - r) c k).flatten) r = w * ch := by
    intro r
    simp only [Function.comp_apply, List.length_flatten, List.map_map]
    rw [show (List.length ∘ fun c => (List.range ch).map fun k =>
          pix (h - 1 - r) c k) = fun _ => ch by funext c; simp]
    rw [List.map_const', List.length_range, List.sum_replicate, smul_eq_mul]
  rw [List.map_congr_left fun r _ => hrow r, List.map_const', List.length_range,
    List.sum_replicate, smul_eq_mul]

lemma payload2_getD (h w : ℕ) (pix : ℕ → ℕ → ℚ) (r c : ℕ)
    (hr : r < h) (hc : c < w) :
    (payload2 h w pix).getD (r * w + c) 0 = pix (h - 1 - r) c := by
  unfold payload2
  rw [getD_flatten _ w r c
    (by intro l hl; simp at hl; obtain ⟨a, -, rfl⟩ := hl; simp)
    (by simpa) hc]
  rw [getD_map_range [] h r (by omega)]
  exact getD_map_range 0 w c hc _

lemma payload3_getD (h w ch : ℕ) (pix : ℕ → ℕ → ℕ → ℚ) (r c k : ℕ)
    (hr : r < h) (hc : c < w) (hk : k < ch) :
    (payload3 h w ch pix).getD ((r * w + c) * ch + k) 0 = pix (h - 1 - r) c k := by
  unfold payload3
  have hidx : (r * w + c) * ch + k = r * (w * ch) + (c * ch + k) := by ring
  rw [hidx]
  have hinner : ∀ x : ℕ, (((List.range w).map fun c =>
      (List.range ch).map fun k => pix (h - 1 - x) c k).flatten).length
        = w * ch := by
    intro x
    simp only [List.length_flatten, List.map_map]
    rw [show (List.length ∘ fun c => (List.range ch).map fun k =>
          pix (h - 1 - x) c k) = fun _ => ch by funext c; simp]
    rw [List.map_const', List.length_range, List.sum_replicate, smul_eq_mul]
  rw [getD_flatten _ (w * ch) r (c * ch + k)
    (by intro l hl; simp only [List.mem_map] at hl;
        obtain ⟨a, -, rfl⟩ := hl; exact hinner a)
    (by simpa) (by nlinarith)]
  rw [getD_map_range [] h r (by omega)]
  rw [getD_flatten _ ch c k
    (by intro l hl; simp at hl; obtain ⟨a, -, rfl⟩ := hl; simp)
    (by simpa) hk]
  rw [getD_map_range [] w c hc]
  exact getD_map_range 0 ch k hk _

lemma load_write_dim2 (s : ℚ) (hs : 0 < s) (bo : NpEndian) (pl : Bool)
    (h w : ℕ) (pix2 : ℕ → ℕ → ℚ) :
    load_pfm ⟨"Pf", w, h, if isLittleData bo pl then -s else s,
        isLittleData bo pl, payload2 h w pix2⟩ =
      some (isLittleData bo pl, .dim2 h w
        (fun r c => (payload2 h w pix2).getD ((h - 1 - r) * w + c) 0)) := by
  have hdl : (decide ((if isLittleData bo pl = true then -s else s) < 0))
      = isLittleData bo pl := by
    cases hb : isLittleData bo pl with
    | true => simp [neg_lt_zero.mpr hs]
    | false => simp [not_lt.mpr hs.le]
  simp [load_pfm, payload2_length, hdl]

lemma load_write_dim3c (s : ℚ) (hs : 0 < s) (bo : NpEndian) (pl : Bool)
    (h w : ℕ) (pix3 : ℕ → ℕ → ℕ → ℚ) :
    load_pfm ⟨"PF", w, h, if isLittleData bo pl then -s else s,
        isLittleData bo pl, payload3 h w 3 pix3⟩ =
      some (isLittleData bo pl, .dim3 h w 3
        (fun r c k => (payload3 h w 3 pix3).getD
          (((h - 1 - r) * w + c) * 3 + k) 0)) := by
  have hdl : (decide ((if isLittleData bo pl = true then -s else s) < 0))
      = isLittleData bo pl := by
    cases hb : isLittleData bo pl with
    | true => simp [neg_lt_zero.mpr hs]
    | false => simp [not_lt.mpr hs.le]
  simp [load_pfm, payload3_length, hdl, Nat.mul_assoc]

lemma load_write_dim3g (s : ℚ) (hs : 0 < s) (bo : NpEndian) (pl : Bool)
    (h w : ℕ) (pix3 : ℕ → ℕ → ℕ → ℚ) :
    load_pfm ⟨"Pf", w, h, if isLittleData bo pl then -s else s,
        isLittleData bo pl, payload3 h w 1 pix3⟩ =
      some (isLittleData bo pl, .dim2 h w
        (fun r c => (payload3 h w 1 pix3).getD ((h - 1 - r) * w + c) 0)) := by
  have hdl : (decide ((if isLittleData bo pl = true then -s else s) < 0))
      = isLittleData bo pl := by
    cases hb : isLittleData bo pl with
    | true => simp [neg_lt_zero.mpr hs]
    | false => simp [not_lt.mpr hs.le]
  simp [load_pfm, payload3_length, hdl, Nat.mul_one]

/-! ### Claim theorems for the PFM codec -/

/-- C3 (counterexample): a `1 × 1 × 1` float image round-trips to a
`1 × 1` image — `write_pfm` stores the single channel as greyscale and
`load_pfm` reshapes greyscale data to 2 dimensions, so the `H × W × 1`
shape is not preserved. -/
theorem pfm_roundtrip_C3_counterexample :
    ((write_pfm (.dim3 1 1 1 fun _ _ _ => 2) 1 .native true).bind load_pfm).map
        (fun p => p.2.shape) = some [1, 1] ∧
      (PfmImage.dim3 1 1 1 fun _ _ _ => (2:ℚ)).shape = [1, 1, 1] ∧
      ([1, 1] : List ℕ) ≠ [1, 1, 1] := by
  refine ⟨?_, rfl, by decide⟩
  have hl := load_write_dim3g 1 (by norm_num) NpEndian.native true 1 1
    (fun _ _ _ => (2:ℚ))
  simp only [isLittleData, if_pos] at hl
  simp [write_pfm, isLittleData, hl, PfmImage.shape]

/-- C3 (amended): with a positive write scale, on any platform and
array byte order, `read(write(img))` succeeds with the byte orders in
agreement, reproduces every pixel exactly and preserves the mono/color
flag; the shape is preserved for `H × W` and `H × W × 3` images, while
an `H × W × 1` image reads back squeezed to `H × W` (same pixel
values). -/
theorem pfm_roundtrip_C3 (s : ℚ) (hs : 0 < s) (bo : NpEndian) (pl : Bool)
    (h w : ℕ) (pix2 : ℕ → ℕ → ℚ) (pix3 : ℕ → ℕ → ℕ → ℚ) :
    (∃ f, write_pfm (.dim2 h w pix2) s bo pl = some f ∧
      ∃ q, load_pfm f = some (isLittleData bo pl, .dim2 h w q) ∧
        ∀ r c, r < h → c < w → q r c = pix2 r c) ∧
      (∃ f, write_pfm (.dim3 h w 3 pix3) s bo pl = some f ∧
        ∃ q, load_pfm f = some (isLittleData bo pl, .dim3 h w 3 q) ∧
          ∀ r c k, r < h → c < w → k < 3 → q r c k = pix3 r c k) ∧
      (∃ f, write_pfm (.dim3 h w 1 pix3) s bo pl = some f ∧
        ∃ q, load_pfm f = some (isLittleData bo pl, .dim2 h w q) ∧
          ∀ r c, r < h → c < w → q r c = pix3 r c 0) := by
  refine ⟨⟨_, rfl, _, load_write_dim2 s hs bo pl h w pix2, ?_⟩,
    ⟨_, rfl, _, load_write_dim3c s hs bo pl h w pix3, ?_⟩,
    ⟨_, rfl, _, load_write_dim3g s hs bo pl h w pix3, ?_⟩⟩
  · intro r c hr hc
    rw [payload2_getD h w pix2 (h - 1 - r) c (by omega) hc]
    congr 1
    omega
  · intro r c k hr hc hk
    rw [payload3_getD h w 3 pix3 (h - 1 - r) c k (by omega) hc hk]
    congr 1
    omega
  · intro r c hr hc
    have hone : (h - 1 - r) * w + c = ((h - 1 - r) * w + c) * 1 + 0 := by ring
    rw [hone, payload3_getD h w 1 pix3 (h - 1 - r) c 0 (by omega) hc (by omega)]
    congr 1
    omega

/-- C3 (witness) for `pfm_roundtrip_C3`: a `1 × 1` image written with
scale `1` on a big-endian array. -/
theorem pfm_roundtrip_C3_witness :
    (0:ℚ) < 1 ∧
      ∃ f, write_pfm (.dim2 1 1 fun _ _ => 7) 1 .big false = some f ∧
        ∃ q, load_pfm f = some (isLittleData .big false, .dim2 1 1 q) ∧
          ∀ r c, r < 1 → c < 1 → q r c = 7 :=
  ⟨by norm_num,
   (pfm_roundtrip_C3 1 (by norm_num) .big false 1 1 (fun _ _ => 7)
     (fun _ _ _ => 0)).1⟩

/-- C7: the scale written by `write_pfm` is the negated input scale
exactly when the data being written is little-endian (on any encoder
platform and array byte order), and `load_pfm` chooses little-endian
decoding exactly when the stored scale is negative; hence for positive
input scales the reader's byte-order choice always equals the payload's
byte order. -/
theorem pfm_endian_C7 (image : PfmImage) (s : ℚ) (hs : 0 < s)
    (bo : NpEndian) (pl : Bool) (f : PfmFile)
    (hw : write_pfm image s bo pl = some f) :
    (f.scale = if isLittleData bo pl then -s else s) ∧
      f.little = isLittleData bo pl ∧
      (f.scale < 0 ↔ isLittleData bo pl = true) ∧
      ∀ (g : PfmFile) (b : Bool) (img : PfmImage),
        load_pfm g = some (b, img) → (b = true ↔ g.scale < 0) := by
  have hscale : f.scale = (if isLittleData bo pl then -s else s) ∧
      f.little = isLittleData bo pl := by
    cases image with
    | dim2 h w pix =>
      simp only [write_pfm, Option.some.injEq] at hw
      rw [← hw]
      exact ⟨rfl, rfl⟩
    | dim3 h w c pix =>
      by_cases h3 : c = 3
      · simp only [write_pfm, h3, if_pos, Option.some.injEq] at hw
        rw [← hw]
        exact ⟨rfl, rfl⟩
      · by_cases h1 : c = 1
        · subst h1
          simp only [write_pfm] at hw
          norm_num at hw
          rw [← hw]
          exact ⟨rfl, rfl⟩
        · simp [write_pfm, h3, h1] at hw
  refine ⟨hscale.1, hscale.2, ?_, ?_⟩
  · rw [hscale.1]
    cases hb : isLittleData bo pl with
    | true => simp [neg_lt_zero.mpr hs]
    | false => simp [not_lt.mpr hs.le]
  · intro g b img hload
    unfold load_pfm at hload
    split_ifs at hload <;>
      simp only [Option.some.injEq, Prod.mk.injEq] at hload
    · rw [← hload.1]
      simp
    · rw [← hload.1]
      simp

/-- C7 (witness) for `pfm_endian_C7`: a native-order array on a
little-endian platform gets scale `-1` written. -/
theorem pfm_endian_C7_witness :
    (0:ℚ) < 1 ∧
      write_pfm (.dim2 1 1 fun _ _ => 2) 1 .native true =
        some ⟨"Pf", 1, 1, -1, true, payload2 1 1 fun _ _ => 2⟩ ∧
      ((⟨"Pf", 1, 1, -1, true, payload2 1 1 fun _ _ => 2⟩ : PfmFile).scale =
        if isLittleData .native true then -1 else 1) :=
  ⟨by norm_num, rfl,
   (pfm_endian_C7 (.dim2 1 1 fun _ _ => 2) 1 (by norm_num) .native true
     ⟨"Pf", 1, 1, -1, true, payload2 1 1 fun _ _ => 2⟩ rfl).1⟩

end MVSNet
